import Mathlib

/-!
# Digit-vector integer decoder: verification of the RabbitHoles notebook core

The repository's single source file is a notebook whose final routine,
`retrieve_full_int_value_from_address`, reconstructs a Python arbitrary-precision
integer from its in-memory representation: a signed digit-count field `ob_size`
and an array `ob_digit` of unsigned 30-bit chunks, combined as
`value = Σ ob_digit[i] * (2^30)^i`, negated when `ob_size < 0`.

We embed that routine with the memory reads abstracted to explicit inputs, and
the specification's general-base `decode`/`encode` contract (validation errors,
sign handling, repeated-division encoding), which the notebook does not contain
and which is therefore modelled from the spec.
-/

namespace RabbitHoles

/-- The sign indicator of the spec's data model: one of {non-negative, negative}. -/
inductive Sign where
  | nonNegative : Sign
  | negative : Sign
  deriving DecidableEq, Repr

/-- The spec's validation-error taxonomy for decode/encode. -/
inductive DecodeError where
  | InvalidDigit : DecodeError
  | InvalidBase : DecodeError
  deriving DecidableEq, Repr

/-- Embedding of the notebook's `retrieve_full_int_value_from_address`.  The
ctypes memory reads are abstracted to the `ob_size` field (signed digit count)
and the `ob_digit` array of unsigned digit chunks; `num_digits = abs(ob_size)`,
`value = Σ ob_digit[i] * (2^30)^i` accumulated by the `for i in range(num_digits)`
loop, and the result is negated when `ob_size < 0` (unconditionally). -/
def retrieve_full_int_value_from_address (obSize : Int) (obDigit : List Nat) : Int :=
  let num_digits := obSize.natAbs
  let base : Int := 2 ^ 30
  let value : Int :=
    (List.range num_digits).foldl
      (fun value i => value + (obDigit.getD i 0 : Int) * base ^ i) 0
  if obSize < 0 then -value else value

/-- The positional accumulation loop shared by the notebook code and the spec's
decode: `value = Σ digits[i] * base^i` for `i = 0 .. len(digits)-1`, written as
the source's left fold over the index range. -/
def accumulate (digits : List Int) (base : Int) : Int :=
  (List.range digits.length).foldl
    (fun value i => value + digits.getD i 0 * base ^ i) 0

/-- Modelled from the spec: `decode(digits, sign, base)`.  The source notebook
only contains the fixed-base unvalidated loop (`retrieve_full_int_value_from_address`);
the general-base contract — `InvalidBase` when `base < 2`, `InvalidDigit` when any
digit is negative or `≥ base`, and negation guarded by a non-zero magnitude —
is taken from the spec (the spec's own error example gives the base check
priority over the digit check). -/
def decode (digits : List Int) (sign : Sign) (base : Int) : Except DecodeError Int :=
  if base < 2 then Except.error DecodeError.InvalidBase
  else if digits.any (fun d => decide (d < 0) || decide (base ≤ d)) then
    Except.error DecodeError.InvalidDigit
  else
    match sign with
    | Sign.nonNegative => Except.ok (accumulate digits base)
    | Sign.negative =>
        Except.ok (if accumulate digits base = 0 then accumulate digits base
          else -accumulate digits base)

/-- Modelled from the spec: `encode(value, base)`, which is missing from src.
Repeatedly divides `|value|` by `base`, collecting remainders least-significant
first until the quotient is zero (`Nat.digits` performs exactly this loop for
`base ≥ 2`); the sign is negative iff `value` is strictly negative; fails with
`InvalidBase` when `base < 2`. -/
def encode (value : Int) (base : Int) : Except DecodeError (List Int × Sign) :=
  if base < 2 then Except.error DecodeError.InvalidBase
  else
    Except.ok ((Nat.digits base.toNat value.natAbs).map (fun d : Nat => (d : Int)),
      if value < 0 then Sign.negative else Sign.nonNegative)

/-- The 308-decimal-digit integer of the notebook's final end-to-end example. -/
def bigExample : Nat := 54789549307749363717967245642654820654127167450746741273478270594796070634706458364583706806438045365380416845306453083476597689754398754937934754389543754383549754398343767263692853638647846584239476595470464783065807645160457365410601546530135648376584073635870564380316583645306584045836453816584334063458

/-! ## Fold lemmas for the accumulation loop -/

lemma foldl_add_shift (f : Nat → Int) (a : Int) :
    ∀ n : Nat, (List.range n).foldl (fun v i => v + f i) a
      = a + (List.range n).foldl (fun v i => v + f i) 0 := by
  intro n
  induction n with
  | zero => simp
  | succ n ih =>
      rw [List.range_succ, List.foldl_append, List.foldl_append, ih]
      simp [add_assoc]

lemma foldl_weight_shift (t : List Int) (b : Int) :
    ∀ n : Nat, (List.range n).foldl (fun v i => v + t.getD i 0 * b ^ (i + 1)) 0
      = b * (List.range n).foldl (fun v i => v + t.getD i 0 * b ^ i) 0 := by
  intro n
  induction n with
  | zero => simp
  | succ n ih =>
      rw [List.range_succ, List.foldl_append, List.foldl_append,
        foldl_add_shift, ih,
        foldl_add_shift (fun i => t.getD i 0 * b ^ i)]
      simp only [List.foldl_cons, List.foldl_nil]
      ring

lemma accumulate_nil (b : Int) : accumulate [] b = 0 := rfl

lemma accumulate_cons (d : Int) (t : List Int) (b : Int) :
    accumulate (d :: t) b = d + b * accumulate t b := by
  unfold accumulate
  rw [List.length_cons, List.range_succ_eq_map, List.foldl_cons, List.foldl_map]
  simp only [List.getD_cons_zero, List.getD_cons_succ, pow_zero, mul_one, zero_add]
  rw [foldl_add_shift (fun i => t.getD i 0 * b ^ (i + 1)), foldl_weight_shift]

lemma accumulate_append (l₁ l₂ : List Int) (b : Int) :
    accumulate (l₁ ++ l₂) b = accumulate l₁ b + b ^ l₁.length * accumulate l₂ b := by
  induction l₁ with
  | nil => simp [accumulate_nil]
  | cons d t ih =>
      rw [List.cons_append, accumulate_cons, ih, accumulate_cons,
        List.length_cons, pow_succ]
      ring

lemma accumulate_replicate_zero (k : Nat) (b : Int) :
    accumulate (List.replicate k 0) b = 0 := by
  induction k with
  | zero => rfl
  | succ k ih =>
      rw [List.replicate_succ, accumulate_cons, ih]
      ring

lemma accumulate_natCast (l : List Nat) (b : Int) :
    accumulate (l.map (fun d : Nat => (d : Int))) b = Nat.ofDigits b l := by
  induction l with
  | nil => rfl
  | cons d t ih =>
      rw [List.map_cons, accumulate_cons, ih]
      rfl

/-! ## Decode lemmas -/

lemma decode_any_false {digits : List Int} {base : Int}
    (hd : ∀ d ∈ digits, 0 ≤ d ∧ d < base) :
    (digits.any fun d => decide (d < 0) || decide (base ≤ d)) = false := by
  rw [List.any_eq_false]
  intro d hdm
  obtain ⟨h1, h2⟩ := hd d hdm
  simp only [Bool.or_eq_true, decide_eq_true_eq]
  omega

lemma decode_invalidBase (digits : List Int) (sign : Sign) {base : Int}
    (h : base < 2) : decode digits sign base = Except.error DecodeError.InvalidBase := by
  unfold decode
  rw [if_pos h]

lemma decode_invalidDigit (digits : List Int) (sign : Sign) {base : Int}
    (hb : 2 ≤ base) (hd : ∃ d ∈ digits, d < 0 ∨ base ≤ d) :
    decode digits sign base = Except.error DecodeError.InvalidDigit := by
  unfold decode
  rw [if_neg (not_lt.mpr hb), if_pos]
  rw [List.any_eq_true]
  obtain ⟨d, hdm, hdlt⟩ := hd
  refine ⟨d, hdm, ?_⟩
  simp only [Bool.or_eq_true, decide_eq_true_eq]
  exact hdlt

lemma decode_ok_nonNegative {digits : List Int} {base : Int}
    (hb : 2 ≤ base) (hd : ∀ d ∈ digits, 0 ≤ d ∧ d < base) :
    decode digits Sign.nonNegative base = Except.ok (accumulate digits base) := by
  unfold decode
  rw [if_neg (not_lt.mpr hb), decode_any_false hd]
  rfl

lemma decode_ok_negative {digits : List Int} {base : Int}
    (hb : 2 ≤ base) (hd : ∀ d ∈ digits, 0 ≤ d ∧ d < base) :
    decode digits Sign.negative base
      = Except.ok (if accumulate digits base = 0 then accumulate digits base
          else -accumulate digits base) := by
  unfold decode
  rw [if_neg (not_lt.mpr hb), decode_any_false hd]
  rfl

lemma decode_negative_eq_neg (digits : List Int) (base : Int) :
    decode digits Sign.negative base
      = Except.map (fun v => -v) (decode digits Sign.nonNegative base) := by
  unfold decode
  by_cases h1 : base < 2
  · rw [if_pos h1, if_pos h1]
    rfl
  · rw [if_neg h1, if_neg h1]
    by_cases h2 : (digits.any fun d => decide (d < 0) || decide (base ≤ d)) = true
    · rw [if_pos h2, if_pos h2]
      rfl
    · rw [if_neg h2, if_neg h2]
      by_cases h3 : accumulate digits base = 0
      · simp [Except.map, if_pos h3, h3]
      · simp [Except.map, if_neg h3]

/-! ## Encode lemmas -/

lemma encode_eq_ok {base : Int} (v : Int) (hb : 2 ≤ base) :
    encode v base = Except.ok
      ((Nat.digits base.toNat v.natAbs).map (fun d : Nat => (d : Int)),
        if v < 0 then Sign.negative else Sign.nonNegative) := by
  unfold encode
  rw [if_neg (not_lt.mpr hb)]

lemma encode_digit_valid {base : Int} (v : Int) (hb : 2 ≤ base) :
    ∀ d ∈ (Nat.digits base.toNat v.natAbs).map (fun d : Nat => (d : Int)),
      0 ≤ d ∧ d < base := by
  intro d hdm
  obtain ⟨n, hn, rfl⟩ := List.mem_map.mp hdm
  have h2 : 1 < base.toNat := by omega
  have h3 := Nat.digits_lt_base h2 hn
  omega

lemma accumulate_encode_digits {base : Int} (v : Int) (hb : 2 ≤ base) :
    accumulate ((Nat.digits base.toNat v.natAbs).map (fun d : Nat => (d : Int))) base
      = (v.natAbs : Int) := by
  rw [accumulate_natCast]
  obtain ⟨m, hm⟩ : ∃ m : Nat, base.toNat = m := ⟨base.toNat, rfl⟩
  have hmb : ((m : Nat) : Int) = base := by
    rw [← hm]
    exact Int.toNat_of_nonneg (by omega)
  rw [hm, ← hmb, ← Nat.coe_int_ofDigits, Nat.ofDigits_digits]

lemma decode_encode_ok (v base : Int) (hb : 2 ≤ base) :
    (encode v base).bind (fun p => decode p.1 p.2 base) = Except.ok v := by
  rw [encode_eq_ok v hb]
  show decode _ _ base = _
  rcases lt_or_le v 0 with hv | hv
  · rw [if_pos hv, decode_ok_negative hb (encode_digit_valid v hb),
      accumulate_encode_digits v hb]
    rw [if_neg (by omega)]
    congr 1
    omega
  · rw [if_neg (not_lt.mpr hv), decode_ok_nonNegative hb (encode_digit_valid v hb),
      accumulate_encode_digits v hb]
    congr 1
    omega

/-! ## Bridging the notebook routine and the accumulation loop -/

lemma getD_map_cast (l : List Nat) (i : Nat) :
    (l.map (fun d : Nat => (d : Int))).getD i 0 = ((l.getD i 0 : Nat) : Int) := by
  induction l generalizing i with
  | nil => simp
  | cons d t ih =>
      cases i with
      | zero => simp
      | succ j => simpa using ih j

lemma retrieve_nonneg_eq_accumulate (l : List Nat) :
    retrieve_full_int_value_from_address (l.length : Int) l
      = accumulate (l.map (fun d : Nat => (d : Int))) (2 ^ 30) := by
  unfold retrieve_full_int_value_from_address accumulate
  rw [if_neg (by omega)]
  simp only [Int.natAbs_ofNat, List.length_map]
  congr 1
  funext v i
  rw [getD_map_cast]

lemma retrieve_digits_eq (n : Nat) :
    retrieve_full_int_value_from_address
      ((Nat.digits (2 ^ 30) n).length : Int) (Nat.digits (2 ^ 30) n) = (n : Int) := by
  rw [retrieve_nonneg_eq_accumulate, accumulate_natCast]
  have h : ((2 ^ 30 : Nat) : Int) = (2 ^ 30 : Int) := by norm_num
  rw [← h, ← Nat.coe_int_ofDigits, Nat.ofDigits_digits]

lemma retrieve_neg_obSize (obSize : Int) (obDigit : List Nat) :
    retrieve_full_int_value_from_address (-obSize) obDigit
      = -retrieve_full_int_value_from_address obSize obDigit := by
  simp only [retrieve_full_int_value_from_address, Int.natAbs_neg]
  rcases lt_trichotomy obSize 0 with h | h | h
  · rw [if_neg (by omega), if_pos h, neg_neg]
  · subst h
    simp
  · rw [if_pos (by omega), if_neg (by omega)]

lemma accumulate_eq_sum (digits : List Int) (base : Int) :
    accumulate digits base
      = ∑ i in Finset.range digits.length, digits.getD i 0 * base ^ i := by
  induction digits with
  | nil => simp [accumulate_nil]
  | cons d t ih =>
      rw [accumulate_cons, ih, List.length_cons, Finset.sum_range_succ']
      simp only [List.getD_cons_succ, List.getD_cons_zero, pow_zero, mul_one]
      have h : ∀ i ∈ Finset.range t.length,
          t.getD i 0 * base ^ (i + 1) = base * (t.getD i 0 * base ^ i) := by
        intro i _
        ring
      rw [Finset.sum_congr rfl h, ← Finset.mul_sum]
      ring

lemma encode_digits_head (v base : Int) (hb : 2 ≤ base) (hv : v ≠ 0) :
    (Nat.digits base.toNat v.natAbs).map (fun d : Nat => (d : Int))
      = (|v| % base)
        :: (Nat.digits base.toNat (|v| / base).natAbs).map (fun d : Nat => (d : Int)) := by
  have h1 : 1 < base.toNat := by omega
  have h2 : 0 < v.natAbs := by omega
  have htn : ((base.toNat : Nat) : Int) = base := Int.toNat_of_nonneg (by omega)
  have habs : |v| = (v.natAbs : Int) := Int.abs_eq_natAbs v
  have hquot : (|v| / base).natAbs = v.natAbs / base.toNat := by
    conv_lhs => rw [habs, ← htn]
    rw [← Int.natCast_div, Int.natAbs_cast]
  have hhead : ((v.natAbs % base.toNat : Nat) : Int) = |v| % base := by
    rw [Int.natCast_mod, htn, habs]
  rw [Nat.digits_def' h1 h2, List.map_cons, hquot, hhead]

/-! ## Claim theorems -/

/-- C1: Round-trip law: for every integer `v` and every base ≥ 2, decoding the
result of encoding `v` at that base returns exactly `v`, with no precision loss
for integers of any magnitude. -/
theorem round_trip_law (v base : Int) (hb : 2 ≤ base) :
    (encode v base).bind (fun p => decode p.1 p.2 base) = Except.ok v :=
  decode_encode_ok v base hb

/-- Witness for C1 at `v = -54`, `base = 10`. -/
theorem round_trip_law_witness :
    (2 : Int) ≤ 10
      ∧ (encode (-54) 10).bind (fun p => decode p.1 p.2 10) = Except.ok (-54) :=
  ⟨by decide, round_trip_law (-54) 10 (by decide)⟩

/-- C2: for valid digits and base ≥ 2, decode with non-negative sign returns
`Σ digits[i] * base^i` (exact integer arithmetic); in particular at base 2^30 a
single digit `d` with `0 ≤ d < 2^30` decodes to exactly `d`. -/
theorem decode_nonNegative_sum :
    (∀ (digits : List Int) (base : Int), 2 ≤ base →
        (∀ d ∈ digits, 0 ≤ d ∧ d < base) →
        decode digits Sign.nonNegative base
          = Except.ok (∑ i in Finset.range digits.length, digits.getD i 0 * base ^ i))
    ∧ ∀ d : Int, 0 ≤ d → d < 2 ^ 30 →
        decode [d] Sign.nonNegative (2 ^ 30) = Except.ok d := by
  constructor
  · intro digits base hb hd
    rw [decode_ok_nonNegative hb hd, accumulate_eq_sum]
  · intro d h0 h1
    have hd : ∀ x ∈ [d], 0 ≤ x ∧ x < (2 ^ 30 : Int) := by
      intro x hx
      rw [List.mem_singleton] at hx
      subst hx
      exact ⟨h0, h1⟩
    rw [decode_ok_nonNegative (by norm_num) hd, accumulate_cons, accumulate_nil]
    congr 1
    ring

/-- Witness for C2: the notebook's probe value 12345 as a single base-2^30 digit. -/
theorem decode_nonNegative_sum_witness :
    decode [12345] Sign.nonNegative (2 ^ 30) = Except.ok 12345 :=
  decode_nonNegative_sum.2 12345 (by decide) (by decide)

/-- C3: decode fails with `InvalidBase` whenever `base < 2` (taking priority, as
the spec's own example fixes), fails with `InvalidDigit` when any digit is
negative or ≥ base, and the spec's two error examples hold:
`decode([2^30], positive, 2^30)` is `InvalidDigit`, `decode([1], positive, 1)`
is `InvalidBase`. -/
theorem decode_error_conditions :
    (∀ (digits : List Int) (sign : Sign) (base : Int), base < 2 →
        decode digits sign base = Except.error DecodeError.InvalidBase)
    ∧ (∀ (digits : List Int) (sign : Sign) (base : Int), 2 ≤ base →
        (∃ d ∈ digits, d < 0 ∨ base ≤ d) →
        decode digits sign base = Except.error DecodeError.InvalidDigit)
    ∧ decode [2 ^ 30] Sign.nonNegative (2 ^ 30) = Except.error DecodeError.InvalidDigit
    ∧ decode [1] Sign.nonNegative 1 = Except.error DecodeError.InvalidBase :=
  ⟨fun digits sign base h => decode_invalidBase digits sign h,
    fun digits sign base hb hd => decode_invalidDigit digits sign hb hd,
    decode_invalidDigit _ _ (by norm_num)
      ⟨2 ^ 30, List.mem_singleton_self _, Or.inr le_rfl⟩,
    decode_invalidBase _ _ (by norm_num)⟩

/-- Witness for C3 at `base = 0` (InvalidBase) and digit `5 ≥ base 3` (InvalidDigit). -/
theorem decode_error_conditions_witness :
    decode [5] Sign.nonNegative 0 = Except.error DecodeError.InvalidBase
    ∧ decode [5] Sign.nonNegative 3 = Except.error DecodeError.InvalidDigit :=
  ⟨decode_error_conditions.1 [5] Sign.nonNegative 0 (by decide),
    decode_error_conditions.2.1 [5] Sign.nonNegative 3 (by decide) (by decide)⟩

/-- C4: when the sign is negative and the accumulated magnitude is non-zero, the
result is the negation of the magnitude; decoding `[7]` at base 10 with negative
sign yields `-7`. -/
theorem decode_negative_negates :
    (∀ (digits : List Int) (base m : Int),
        decode digits Sign.nonNegative base = Except.ok m → m ≠ 0 →
        decode digits Sign.negative base = Except.ok (-m))
    ∧ decode [7] Sign.negative 10 = Except.ok (-7) := by
  constructor
  · intro digits base m hm _
    rw [decode_negative_eq_neg, hm]
    rfl
  · rfl

/-- Witness for C4 at digits `[7]`, base 10, magnitude 7. -/
theorem decode_negative_negates_witness :
    decode [7] Sign.negative 10 = Except.ok (-(7 : Int)) :=
  decode_negative_negates.1 [7] 10 7 (by rfl) (by decide)

/-- C5: encode produces exactly the digits of repeated division of `|v|` by
`base`, least-significant remainder first, terminating with the empty list at
quotient zero; the recorded sign is negative exactly when `v < 0`. -/
theorem encode_repeated_division (v base : Int) (hb : 2 ≤ base) :
    ∃ ds s, encode v base = Except.ok (ds, s)
      ∧ (s = Sign.negative ↔ v < 0)
      ∧ (v = 0 → ds = [])
      ∧ (v ≠ 0 → ∃ ds' s', encode (|v| / base) base = Except.ok (ds', s')
          ∧ ds = (|v| % base) :: ds') := by
  refine ⟨_, _, encode_eq_ok v hb, ?_, ?_, ?_⟩
  · rcases lt_or_le v 0 with hv | hv
    · rw [if_pos hv]
      simp [hv]
    · rw [if_neg (not_lt.mpr hv)]
      constructor
      · intro h
        exact Sign.noConfusion h
      · intro h
        omega
  · intro h
    subst h
    simp
  · intro hv
    exact ⟨_, _, encode_eq_ok (|v| / base) hb, encode_digits_head v base hb hv⟩

/-- Witness for C5 at `v = -7`, `base = 10`. -/
theorem encode_repeated_division_witness :
    (2 : Int) ≤ 10
      ∧ ∃ ds s, encode (-7) 10 = Except.ok (ds, s)
        ∧ (s = Sign.negative ↔ (-7 : Int) < 0)
        ∧ ((-7 : Int) = 0 → ds = [])
        ∧ ((-7 : Int) ≠ 0 → ∃ ds' s', encode (|(-7 : Int)| / 10) 10 = Except.ok (ds', s')
            ∧ ds = (|(-7 : Int)| % 10) :: ds') :=
  ⟨by decide, encode_repeated_division (-7) 10 (by decide)⟩

/-- C6: the digit sequence returned by encode is normalized — its most-significant
(last) digit is never 0 — except that the value 0 is canonically encoded as the
empty digit sequence with non-negative sign. -/
theorem encode_normalized (v base : Int) (hb : 2 ≤ base) :
    ∃ ds s, encode v base = Except.ok (ds, s)
      ∧ (ds ≠ [] → ds.getLast? ≠ some 0)
      ∧ (v = 0 → ds = [] ∧ s = Sign.nonNegative) := by
  refine ⟨_, _, encode_eq_ok v hb, ?_, ?_⟩
  · intro hne
    have hL : Nat.digits base.toNat v.natAbs ≠ [] := by
      intro h
      rw [h] at hne
      simp at hne
    have hn0 : v.natAbs ≠ 0 := Nat.digits_ne_nil_iff_ne_zero.mp hL
    have hlast := Nat.getLast_digit_ne_zero base.toNat hn0
    rw [List.getLast?_map, List.getLast?_eq_getLast _ hL]
    simpa using hlast
  · intro h
    subst h
    simp

/-- Witness for C6 at `v = 0`, `base = 10` (canonical zero encoding). -/
theorem encode_normalized_witness :
    (2 : Int) ≤ 10
      ∧ ∃ ds s, encode 0 10 = Except.ok (ds, s)
        ∧ (ds ≠ [] → ds.getLast? ≠ some 0)
        ∧ ((0 : Int) = 0 → ds = [] ∧ s = Sign.nonNegative) :=
  ⟨by decide, encode_normalized 0 10 (by decide)⟩

/-- C7: no fixed-machine-width truncation: every 300-decimal-digit integer
round-trips exactly at base 2^30, and the notebook's 308-decimal-digit
end-to-end example is reproduced both through encode/decode and through the
notebook's own reconstruction routine applied to its base-2^30 digit chunks. -/
theorem large_value_roundtrip :
    (∀ v : Int, 10 ^ 299 ≤ v → v < 10 ^ 300 →
        (encode v (2 ^ 30)).bind (fun p => decode p.1 p.2 (2 ^ 30)) = Except.ok v)
    ∧ (encode (bigExample : Int) (2 ^ 30)).bind (fun p => decode p.1 p.2 (2 ^ 30))
        = Except.ok (bigExample : Int)
    ∧ retrieve_full_int_value_from_address
        ((Nat.digits (2 ^ 30) bigExample).length : Int)
        (Nat.digits (2 ^ 30) bigExample) = (bigExample : Int) :=
  ⟨fun v _ _ => decode_encode_ok v (2 ^ 30) (by norm_num),
    decode_encode_ok _ _ (by norm_num), retrieve_digits_eq bigExample⟩

/-- Witness for C7 at the 300-decimal-digit integer `10^299`. -/
theorem large_value_roundtrip_witness :
    (10 : Int) ^ 299 ≤ 10 ^ 299 ∧ (10 : Int) ^ 299 < 10 ^ 300
      ∧ (encode ((10 : Int) ^ 299) (2 ^ 30)).bind (fun p => decode p.1 p.2 (2 ^ 30))
          = Except.ok ((10 : Int) ^ 299) :=
  ⟨le_refl _, pow_lt_pow_right₀ (by decide) (by decide),
    large_value_roundtrip.1 (10 ^ 299) (le_refl _)
      (pow_lt_pow_right₀ (by decide) (by decide))⟩

/-- C8: decode is deterministic and total over all valid DigitSequence + Sign
inputs: every valid input produces an integer (never an error, always
terminating), and two invocations on the same input agree. -/
theorem decode_total_deterministic :
    (∀ (digits : List Int) (sign : Sign) (base : Int), 2 ≤ base →
        (∀ d ∈ digits, 0 ≤ d ∧ d < base) →
        ∃ v : Int, decode digits sign base = Except.ok v)
    ∧ (∀ (digits : List Int) (sign : Sign) (base : Int)
        (r₁ r₂ : Except DecodeError Int),
        decode digits sign base = r₁ → decode digits sign base = r₂ → r₁ = r₂) := by
  constructor
  · intro digits sign base hb hd
    cases sign with
    | nonNegative => exact ⟨_, decode_ok_nonNegative hb hd⟩
    | negative => exact ⟨_, decode_ok_negative hb hd⟩
  · intro digits sign base r₁ r₂ h1 h2
    rw [← h1, ← h2]

/-- Witness for C8 at digits `[1, 2]`, negative sign, base 10. -/
theorem decode_total_deterministic_witness :
    ∃ v : Int, decode [1, 2] Sign.negative 10 = Except.ok v :=
  decode_total_deterministic.1 [1, 2] Sign.negative 10 (by decide) (by decide)

/-- C9: decode with negative sign is unconditionally the negation of decode with
non-negative sign; all-zero (or empty) digit sequences decode to 0 under either
sign; and the notebook code's unconditional negation on a negative `ob_size` is
likewise a plain negation, so it is equivalent to the spec's negation guarded by
a non-zero magnitude. -/
theorem negation_unconditional_equiv :
    (∀ (digits : List Int) (base : Int),
        decode digits Sign.negative base
          = Except.map (fun v => -v) (decode digits Sign.nonNegative base))
    ∧ (∀ (k : Nat) (sign : Sign) (base : Int), 2 ≤ base →
        decode (List.replicate k 0) sign base = Except.ok 0)
    ∧ (∀ (obSize : Int) (obDigit : List Nat),
        retrieve_full_int_value_from_address (-obSize) obDigit
          = -retrieve_full_int_value_from_address obSize obDigit) := by
  refine ⟨decode_negative_eq_neg, ?_, retrieve_neg_obSize⟩
  intro k sign base hb
  have hd : ∀ d ∈ List.replicate k (0 : Int), 0 ≤ d ∧ d < base := by
    intro d hdm
    rw [List.eq_of_mem_replicate hdm]
    omega
  cases sign with
  | nonNegative => rw [decode_ok_nonNegative hb hd, accumulate_replicate_zero]
  | negative =>
      rw [decode_ok_negative hb hd, accumulate_replicate_zero]
      simp

/-- Witness for C9: two zero digits with negative sign decode to 0. -/
theorem negation_unconditional_equiv_witness :
    decode (List.replicate 2 0) Sign.negative 10 = Except.ok 0 :=
  negation_unconditional_equiv.2.1 2 Sign.negative 10 (by decide)

/-- C10: decode does not require normalized input: appending any number of zero
digits at the most-significant end leaves the decode result unchanged, each such
digit contributing `0 * base^i` to the accumulated sum. -/
theorem decode_ignores_leading_zeros (digits : List Int) (sign : Sign) (base : Int)
    (k : Nat) :
    decode (digits ++ List.replicate k 0) sign base = decode digits sign base := by
  by_cases h1 : base < 2
  · rw [decode_invalidBase _ _ h1, decode_invalidBase _ _ h1]
  · have hacc : accumulate (digits ++ List.replicate k 0) base
        = accumulate digits base := by
      rw [accumulate_append, accumulate_replicate_zero]
      ring
    have hany : ((digits ++ List.replicate k 0).any
          fun d => decide (d < 0) || decide (base ≤ d))
        = (digits.any fun d => decide (d < 0) || decide (base ≤ d)) := by
      rw [List.any_append]
      have hz : ((List.replicate k (0 : Int)).any
            fun d => decide (d < 0) || decide (base ≤ d)) = false := by
        rw [List.any_eq_false]
        intro x hx
        rw [List.eq_of_mem_replicate hx]
        simp only [Bool.or_eq_true, decide_eq_true_eq]
        omega
      rw [hz, Bool.or_false]
    unfold decode
    rw [if_neg h1, if_neg h1, hany, hacc]

end RabbitHoles
